import Mathlib

/-!
Verification of the lazy_streams library (lazy_streams.py).

A stream pipeline is a chain of stages (`_LazyListStream`, `_LazyMapStream`,
`_LazyFilterStream`, `_LazyReverseStream`, `_LazyFlattenStream`), each holding
a reference to its parent.  Each stage exposes `_materialize_item(index)`
returning a `_MaterializationResult` (ITEM / FILTERED_OUT / NO_ITEM) and the
terminal operations (`to_list`, `reduce`, `size`, ...) are driven by repeated
materialization calls.

The embedding below mirrors the Python source:
  * `Val` is the type of values flowing through a stream (integers and
    arbitrarily nested lists, enough to exercise `flatten`).
  * `MatResult` is `_MaterializationResult` with its three states.
  * `Stage` is the chain of stage objects.
  * `denote` gives each stage its `_materialize_item` function, together with
    a bound past which (on both sides of 0) materialization is exhausted; the
    bound is only a termination certificate for the `while True` loops of the
    Python terminal operations, proved correct in `materialize_noItem_of_bound`.
  * `toListFuel` is the loop body of `LazyStream._to_list_serial`; with fuel
    exceeding the first exhausted index it computes exactly the Python loop
    (`toListFuel_stable` shows the fuel does not matter once large enough).
  * `pyGet` models Python list indexing `lst[i]`, including negative indices,
    as used by `_LazyFlattenStream._materialize_item`.
-/

namespace LazyStreams

/-- A Python value in a stream: an integer or a (possibly nested) list.
Nested lists are what `flatten` expands. -/
inductive Val where
  | int (n : Int)
  | vlist (l : List Val)

mutual

/-- Boolean equality on values (structural). -/
def Val.beq : Val → Val → Bool
  | .int a, .int b => a == b
  | .vlist a, .vlist b => Val.beqList a b
  | .int _, .vlist _ => false
  | .vlist _, .int _ => false

/-- Boolean equality on lists of values. -/
def Val.beqList : List Val → List Val → Bool
  | [], [] => true
  | a :: as, b :: bs => Val.beq a b && Val.beqList as bs
  | [], _ :: _ => false
  | _ :: _, [] => false

end

mutual

theorem Val.eq_of_beq : ∀ {a b : Val}, Val.beq a b = true → a = b
  | .int _, .int _, h => by
      simp only [Val.beq, beq_iff_eq] at h
      simp [h]
  | .int _, .vlist _, h => by simp [Val.beq] at h
  | .vlist _, .int _, h => by simp [Val.beq] at h
  | .vlist a, .vlist b, h => by
      simp only [Val.beq] at h
      exact congrArg Val.vlist (Val.eqList_of_beqList h)

theorem Val.eqList_of_beqList : ∀ {a b : List Val}, Val.beqList a b = true → a = b
  | [], [], _ => rfl
  | [], _ :: _, h => by simp [Val.beqList] at h
  | _ :: _, [], h => by simp [Val.beqList] at h
  | a :: as, b :: bs, h => by
      simp only [Val.beqList, Bool.and_eq_true] at h
      rw [Val.eq_of_beq h.1, Val.eqList_of_beqList h.2]

end

mutual

theorem Val.beq_refl : ∀ a : Val, Val.beq a a = true
  | .int _ => by simp [Val.beq]
  | .vlist a => by
      simp only [Val.beq]
      exact Val.beqList_refl a

theorem Val.beqList_refl : ∀ a : List Val, Val.beqList a a = true
  | [] => rfl
  | a :: as => by
      simp only [Val.beqList, Bool.and_eq_true]
      exact ⟨Val.beq_refl a, Val.beqList_refl as⟩

end

instance : DecidableEq Val := fun a b =>
  if h : Val.beq a b = true then isTrue (Val.eq_of_beq h)
  else isFalse (fun he => h (he ▸ Val.beq_refl a))

/-- `_MaterializationResultState` / `_MaterializationResult`: the tagged
outcome of materializing one index (ITEM carries the value). -/
inductive MatResult where
  | item (v : Val)
  | filteredOut
  | noItem
deriving DecidableEq

/-- The chain of stage objects.  `source` is `_LazyListStream`, the other
constructors are the transform stages wrapping their parent. -/
inductive Stage where
  | source (lst : List Val)
  | map (f : Val → Val) (parent : Stage)
  | filter (p : Val → Bool) (parent : Stage)
  | reverse (parent : Stage)
  | flatten (parent : Stage)

/-- The `_original_size` field: set to `len(lst)` by `_LazyListStream.__init__`
and copied from the parent by every transform stage's `__init__`. -/
def originalSize : Stage → Nat
  | .source l => l.length
  | .map _ p => originalSize p
  | .filter _ p => originalSize p
  | .reverse p => originalSize p
  | .flatten p => originalSize p

mutual

/-- `_list_flattener`: recursively expands nested list values. -/
def flattenVals : List Val → List Val
  | [] => []
  | v :: rest => flattenOne v ++ flattenVals rest

/-- One step of `_list_flattener`: a nested list is expanded recursively, a
scalar is yielded as a singleton. -/
def flattenOne : Val → List Val
  | .int n => [.int n]
  | .vlist l => flattenVals l

end

/-- Python list indexing `l[i]`: non-negative indices index from the front,
negative indices index from the back (`l[-1]` is the last element); out of
range on either side raises IndexError, modelled as `none`. -/
def pyGet (l : List Val) (i : Int) : Option Val :=
  if 0 ≤ i then l.get? i.toNat
  else if 0 ≤ (l.length : Int) + i then l.get? ((l.length : Int) + i).toNat
  else none

/-- The loop of `LazyStream._to_list_serial`: materialize increasing indices
starting at `i`, collect ITEM values, skip FILTERED_OUT, stop at NO_ITEM.
`fuel` bounds the number of iterations; every stage below is exhausted at
`bound s`, so fuel `bound s + 1` reproduces the unbounded Python loop. -/
def toListFuel (m : Int → MatResult) : Nat → Int → List Val
  | 0, _ => []
  | fuel + 1, i =>
    match m i with
    | .item v => v :: toListFuel m fuel (i + 1)
    | .filteredOut => toListFuel m fuel (i + 1)
    | .noItem => []

/-- Each stage's `_materialize_item`, paired with an exhaustion bound: for
every index at distance at least the bound from 0 (on either side) the stage
returns NO_ITEM.  Cases mirror the Python classes:
`source` checks `index < 0` then indexes the list (IndexError ↦ NO_ITEM);
`map` applies `f` to a parent ITEM and passes other results through;
`filter` keeps a parent ITEM satisfying `p`, demotes it to FILTERED_OUT
otherwise, and passes non-ITEM results through;
`reverse` delegates to the parent at `original_size - index - 1`;
`flatten` indexes (with full Python indexing) into the flattened form of the
parent's `to_list()`. -/
def denote : Stage → (Int → MatResult) × Nat
  | .source l =>
      (fun i =>
        if i < 0 then .noItem
        else
          match l.get? i.toNat with
          | some v => .item v
          | none => .noItem,
       l.length + 1)
  | .map f p =>
      (fun i =>
        match (denote p).1 i with
        | .item v => .item (f v)
        | .filteredOut => .filteredOut
        | .noItem => .noItem,
       (denote p).2)
  | .filter q p =>
      (fun i =>
        match (denote p).1 i with
        | .item v => if q v then .item v else .filteredOut
        | .filteredOut => .filteredOut
        | .noItem => .noItem,
       (denote p).2)
  | .reverse p =>
      (fun i => (denote p).1 ((originalSize p : Int) - i - 1),
       (denote p).2 + originalSize p + 1)
  | .flatten p =>
      (fun i =>
        match pyGet (flattenVals (toListFuel (denote p).1 ((denote p).2 + 1) 0)) i with
        | some v => .item v
        | none => .noItem,
       (flattenVals (toListFuel (denote p).1 ((denote p).2 + 1) 0)).length + 1)

/-- `_materialize_item` of a stage. -/
def materialize (s : Stage) : Int → MatResult := (denote s).1

/-- Two-sided exhaustion bound of a stage (termination certificate). -/
def bound (s : Stage) : Nat := (denote s).2

/-- `LazyStream.to_list(threads=0)`: the serial materialization loop. -/
def serialToList (s : Stage) : List Val :=
  toListFuel (materialize s) (bound s + 1) 0

/-- The root `Source` collection at the bottom of a stage chain. -/
def rootSource : Stage → List Val
  | .source l => l
  | .map _ p => rootSource p
  | .filter _ p => rootSource p
  | .reverse p => rootSource p
  | .flatten p => rootSource p

/-- True when no Flatten stage occurs anywhere in the chain. -/
def noFlatten : Stage → Bool
  | .source _ => true
  | .map _ p => noFlatten p
  | .filter _ p => noFlatten p
  | .reverse p => noFlatten p
  | .flatten _ => false

/-!
`LazyStream._to_list_parallel` submits `materialize(index)` for increasing
indices to a worker pool, after each submission scanning the submitted
promises from the newest to the oldest: a pending promise is skipped, a
NO_ITEM result stops submission, an ITEM result keeps it going.  After the
pool is stopped (draining all work), completed ITEM results are collected in
promise (= index) order.

The embedding makes the only nondeterministic ingredient explicit: a
schedule `sched t i` telling whether promise `i` has completed by the time
the check after submitting promise `t` runs.  Since transform functions are
modelled as pure, a completed promise for index `i` always holds
`materialize i`.  The submission loop takes fuel; `none` means the loop was
still running when the fuel ran out.
-/

/-- The backward scan of `promises_contains_no_item` over a list of promise
indices (newest first): skip pending, true on NO_ITEM, false on ITEM. -/
def scanBack (m : Int → MatResult) (avail : Nat → Bool) : List Nat → Bool
  | [] => false
  | i :: rest =>
    if avail i then
      match m i with
      | .noItem => true
      | .item _ => false
      | .filteredOut => scanBack m avail rest
    else scanBack m avail rest

/-- The submission loop: at step `t` promise `t` is submitted and the scan
runs over promises `t, t-1, ..., 0` with availability `sched t`; returns the
step at which the loop breaks. -/
def breakIndex (m : Int → MatResult) (sched : Nat → Nat → Bool) : Nat → Nat → Option Nat
  | 0, _ => none
  | fuel + 1, t =>
    if scanBack m (sched t) ((List.range (t + 1)).reverse) then some t
    else breakIndex m sched fuel (t + 1)

/-- The collection phase after `p_keeper.stop()`: every promise has its
result, ITEM values are kept in index order, NO_ITEM and FILTERED_OUT are
dropped. -/
def collectItems (m : Int → MatResult) (idxs : List Nat) : List Val :=
  idxs.filterMap fun (i : Nat) =>
    match m (i : Int) with
    | .item v => some v
    | .filteredOut => none
    | .noItem => none

/-- `LazyStream.to_list(threads=k)` for `k > 0`, as a function of the
completion schedule. -/
def parallelToList (m : Int → MatResult) (sched : Nat → Nat → Bool) (fuel : Nat) :
    Option (List Val) :=
  (breakIndex m sched fuel 0).map fun t => collectItems m (List.range (t + 1))

/-- `functools.reduce` without an initial value: raises on an empty iterable
(modelled as `none`), otherwise left-folds starting from the head. -/
def pyReduce (f : Val → Val → Val) : List Val → Option Val
  | [] => none
  | x :: xs => some (xs.foldl f x)

/-- `LazyStream.reduce(func)` (serial): python reduce over `to_list()`. -/
def streamReduce (f : Val → Val → Val) (s : Stage) : Option Val :=
  pyReduce f (serialToList s)

/-- `_LazyFilterStream.size`: `self._size` starts as the sentinel `-1`; a
call finding the sentinel computes `len(self.to_list())` and stores it,
otherwise the stored value is returned untouched.  Returns the pair
(returned size, cache field after the call). -/
def filterSize (q : Val → Bool) (parent : Stage) (cache : Int) : Nat × Int :=
  if cache = -1 then
    ((serialToList (.filter q parent)).length,
      ((serialToList (.filter q parent)).length : Int))
  else (cache.toNat, cache)

/-- Predicate `lambda x: x % 2 == 1` on stream values. -/
def isOddV : Val → Bool
  | .int n => n % 2 == 1
  | .vlist _ => false

/-- Predicate `lambda x: x % 2 == 0` on stream values. -/
def isEvenV : Val → Bool
  | .int n => n % 2 == 0
  | .vlist _ => false

/-- Integer addition on stream values (a concrete reduce function). -/
def addV : Val → Val → Val
  | .int a, .int b => .int (a + b)
  | a, _ => a

/-- `stream([1, 2, 3, 4]).filter(lambda x: x % 2 == 1)`. -/
def oddSrc4 : Stage :=
  .filter isOddV (.source [.int 1, .int 2, .int 3, .int 4])

/-- `stream([1, 2, 3, 4]).filter(odd).flatten().reverse()`: a stage whose
exhaustion is not monotone because the flatten cache (2 items) is shorter
than the propagated original size (4) used by reverse. -/
def revFlatOdd : Stage := .reverse (.flatten oddSrc4)

/-- `stream(range(50))`. -/
def src50 : Stage := .source ((List.range 50).map fun k => Val.int k)

/-- `stream([[1, 2]])`. -/
def nestedSrc : Stage := .source [.vlist [.int 1, .int 2]]

/-- A completion schedule on which no promise result is visible before the
check that follows the submission of promise 6. -/
def lateSched : Nat → Nat → Bool := fun t _ => decide (6 ≤ t)

theorem materialize_source (l : List Val) (i : Int) :
    materialize (.source l) i =
      if i < 0 then .noItem
      else
        match l.get? i.toNat with
        | some v => .item v
        | none => .noItem := rfl

theorem materialize_map (f : Val → Val) (p : Stage) (i : Int) :
    materialize (.map f p) i =
      match materialize p i with
      | .item v => .item (f v)
      | .filteredOut => .filteredOut
      | .noItem => .noItem := rfl

theorem materialize_filter (q : Val → Bool) (p : Stage) (i : Int) :
    materialize (.filter q p) i =
      match materialize p i with
      | .item v => if q v then .item v else .filteredOut
      | .filteredOut => .filteredOut
      | .noItem => .noItem := rfl

theorem materialize_reverse (p : Stage) (i : Int) :
    materialize (.reverse p) i = materialize p ((originalSize p : Int) - i - 1) := rfl

theorem materialize_flatten (p : Stage) (i : Int) :
    materialize (.flatten p) i =
      match pyGet (flattenVals (serialToList p)) i with
      | some v => .item v
      | none => .noItem := rfl

theorem bound_source (l : List Val) : bound (.source l) = l.length + 1 := rfl

theorem bound_map (f : Val → Val) (p : Stage) : bound (.map f p) = bound p := rfl

theorem bound_filter (q : Val → Bool) (p : Stage) : bound (.filter q p) = bound p := rfl

theorem bound_reverse (p : Stage) :
    bound (.reverse p) = bound p + originalSize p + 1 := rfl

theorem bound_flatten (p : Stage) :
    bound (.flatten p) = (flattenVals (serialToList p)).length + 1 := rfl

/-- `pyGet` fails exactly outside `[-length, length)`. -/
theorem pyGet_eq_none_iff (l : List Val) (i : Int) :
    pyGet l i = none ↔ ((l.length : Int) ≤ i ∨ i < -(l.length : Int)) := by
  unfold pyGet
  split
  · rename_i h0
    rw [List.get?_eq_none]
    constructor
    · intro h
      exact Or.inl (by omega)
    · intro h
      omega
  · rename_i h0
    split
    · rename_i h1
      rw [List.get?_eq_none]
      constructor
      · intro h
        omega
      · intro h
        omega
    · rename_i h1
      simp only [true_iff]
      omega

/-- Every stage is exhausted at indices beyond its bound, on both sides. -/
theorem materialize_noItem_of_bound (s : Stage) (i : Int)
    (h : (bound s : Int) ≤ i ∨ i ≤ -(bound s : Int)) :
    materialize s i = .noItem := by
  induction s generalizing i with
  | source l =>
    rw [materialize_source]
    rw [bound_source] at h
    split
    · rfl
    · rename_i hneg
      have hge : l.length ≤ i.toNat := by omega
      rw [List.get?_eq_none.mpr hge]
  | map f p ih =>
    rw [materialize_map, ih i (by rw [bound_map] at h; exact h)]
  | filter q p ih =>
    rw [materialize_filter, ih i (by rw [bound_filter] at h; exact h)]
  | reverse p ih =>
    rw [materialize_reverse]
    apply ih
    rw [bound_reverse] at h
    omega
  | flatten p ih =>
    rw [materialize_flatten]
    rw [bound_flatten] at h
    rw [(pyGet_eq_none_iff _ _).mpr (by omega)]

/-- The serial loop's output does not depend on the fuel once the fuel
reaches past a known exhausted index. -/
theorem toListFuel_stable (m : Int → MatResult) :
    ∀ (d : Nat) (i : Int), m (i + d) = .noItem →
      ∀ f₁ f₂ : Nat, d < f₁ → d < f₂ →
        toListFuel m f₁ i = toListFuel m f₂ i := by
  intro d
  induction d with
  | zero =>
    intro i hm f₁ f₂ h1 h2
    obtain ⟨a, rfl⟩ := Nat.exists_eq_succ_of_ne_zero (by omega : f₁ ≠ 0)
    obtain ⟨b, rfl⟩ := Nat.exists_eq_succ_of_ne_zero (by omega : f₂ ≠ 0)
    simp only [Nat.cast_zero, add_zero] at hm
    simp only [toListFuel, hm]
  | succ d ih =>
    intro i hm f₁ f₂ h1 h2
    obtain ⟨a, rfl⟩ := Nat.exists_eq_succ_of_ne_zero (by omega : f₁ ≠ 0)
    obtain ⟨b, rfl⟩ := Nat.exists_eq_succ_of_ne_zero (by omega : f₂ ≠ 0)
    have hm' : m (i + 1 + d) = .noItem := by
      have : i + 1 + (d : Int) = i + ((d : Nat) + 1 : Nat) := by push_cast; ring
      rw [this]
      exact hm
    simp only [toListFuel]
    cases hmi : m i with
    | item v => rw [ih (i + 1) hm' a b (by omega) (by omega)]
    | filteredOut => rw [ih (i + 1) hm' a b (by omega) (by omega)]
    | noItem => rfl

/-- Two pointwise-equal materialization functions drive the serial loop to the
same output. -/
theorem toListFuel_congr (m₁ m₂ : Int → MatResult) (h : ∀ i, m₁ i = m₂ i) :
    ∀ (fuel : Nat) (i : Int), toListFuel m₁ fuel i = toListFuel m₂ fuel i := by
  intro fuel
  induction fuel with
  | zero => intro i; rfl
  | succ f ih =>
    intro i
    simp only [toListFuel, h i]
    cases m₂ i with
    | item v => rw [ih]
    | filteredOut => rw [ih]
    | noItem => rfl

/-- The serial loop under a filter stage keeps exactly the parent loop's
values that satisfy the predicate, in order (the loops break at the same
index, since the filter stage passes the parent's NO_ITEM through). -/
theorem toListFuel_filter (q : Val → Bool) (p : Stage) :
    ∀ (fuel : Nat) (i : Int),
      toListFuel (materialize (.filter q p)) fuel i =
        List.filter q (toListFuel (materialize p) fuel i) := by
  intro fuel
  induction fuel with
  | zero => intro i; rfl
  | succ f ih =>
    intro i
    simp only [toListFuel, materialize_filter]
    cases materialize p i with
    | item v =>
      cases hq : q v with
      | true => simp [List.filter, hq, ih]
      | false => simp [List.filter, hq, ih]
    | filteredOut => simpa using ih (i + 1)
    | noItem => rfl

/-- Key helper: `to_list` of a filter stage is the filtered `to_list` of the
parent. -/
theorem serialToList_filter (q : Val → Bool) (p : Stage) :
    serialToList (.filter q p) = List.filter q (serialToList p) := by
  unfold serialToList
  rw [bound_filter]
  exact toListFuel_filter q p (bound p + 1) 0

/-- Materializing a double reverse is materializing the original stage: the
two index inversions against the same propagated `_original_size` cancel. -/
theorem materialize_reverse_reverse (s : Stage) (i : Int) :
    materialize (.reverse (.reverse s)) i = materialize s i := by
  rw [materialize_reverse, materialize_reverse]
  have h : originalSize (.reverse s) = originalSize s := rfl
  rw [h]
  congr 1
  omega

/-- The propagated `_original_size` field always equals the length of the
ultimate root Source collection. -/
theorem originalSize_eq_rootSource_length (s : Stage) :
    originalSize s = (rootSource s).length := by
  induction s with
  | source l => rfl
  | map f p ih => exact ih
  | filter q p ih => exact ih
  | reverse p ih => exact ih
  | flatten p ih => exact ih

/-- A map stage is exhausted at an index exactly when its parent is. -/
theorem map_noItem_iff (f : Val → Val) (p : Stage) (i : Int) :
    materialize (.map f p) i = .noItem ↔ materialize p i = .noItem := by
  rw [materialize_map]
  cases materialize p i <;> simp

/-- A filter stage is exhausted at an index exactly when its parent is: the
predicate only ever demotes ITEM to FILTERED_OUT. -/
theorem filter_noItem_iff (q : Val → Bool) (p : Stage) (i : Int) :
    materialize (.filter q p) i = .noItem ↔ materialize p i = .noItem := by
  rw [materialize_filter]
  cases materialize p i with
  | item v => cases hq : q v <;> simp [hq]
  | filteredOut => simp
  | noItem => simp

/-- In a Flatten-free chain, a stage is exhausted at exactly the indices
outside `[0, original_size)`: the index space is preserved by map and filter
and inverted by reverse against the same original size. -/
theorem noItem_iff_of_noFlatten (s : Stage) :
    ∀ i : Int, noFlatten s = true →
      (materialize s i = .noItem ↔ (i < 0 ∨ (originalSize s : Int) ≤ i)) := by
  induction s with
  | source l =>
    intro i _
    rw [materialize_source]
    show _ ↔ i < 0 ∨ ((l.length : Int) ≤ i)
    split
    · rename_i hneg
      constructor
      · intro _
        exact Or.inl hneg
      · intro _
        rfl
    · rename_i hpos
      cases hg : l.get? i.toNat with
      | some v =>
        have hlt : i.toNat < l.length := by
          by_contra hc
          rw [List.get?_eq_none.mpr (by omega)] at hg
          exact Option.noConfusion hg
        simp only [hg]
        constructor
        · intro hcontra
          exact absurd hcontra (by simp)
        · intro hor
          exfalso
          omega
      | none =>
        have hge : l.length ≤ i.toNat := List.get?_eq_none.mp hg
        simp only [hg]
        constructor
        · intro _
          omega
        · intro _
          trivial
  | map f p ih =>
    intro i h
    rw [map_noItem_iff, ih i h]
    rfl
  | filter q p ih =>
    intro i h
    rw [filter_noItem_iff, ih i h]
    rfl
  | reverse p ih =>
    intro i h
    rw [materialize_reverse, ih ((originalSize p : Int) - i - 1) h]
    show _ ↔ i < 0 ∨ ((originalSize p : Int) ≤ i)
    omega
  | flatten p ih =>
    intro i h
    exact absurd h (by simp [noFlatten])

/-- Reversing twice gives back the original materialized list. -/
theorem serialToList_reverse_reverse (s : Stage) :
    serialToList (.reverse (.reverse s)) = serialToList s := by
  unfold serialToList
  rw [toListFuel_congr (materialize (.reverse (.reverse s))) (materialize s)
      (materialize_reverse_reverse s)]
  apply toListFuel_stable (materialize s) (bound s) 0
  · apply materialize_noItem_of_bound
    left
    omega
  · rw [bound_reverse, bound_reverse]
    omega
  · omega

/-- If the backward scan reports NO_ITEM, some scanned promise really is
exhausted. -/
theorem scanBack_noItem (m : Int → MatResult) (avail : Nat → Bool) :
    ∀ l : List Nat, scanBack m avail l = true → ∃ i ∈ l, m i = .noItem := by
  intro l
  induction l with
  | nil =>
    intro h
    exact absurd h (by simp [scanBack])
  | cons a rest ih =>
    intro h
    by_cases ha : avail a = true
    · rw [scanBack, if_pos ha] at h
      cases hma : m a with
      | noItem => exact ⟨a, by simp, hma⟩
      | item v =>
        rw [hma] at h
        exact absurd h (by simp)
      | filteredOut =>
        rw [hma] at h
        obtain ⟨i, hi, hmi⟩ := ih h
        exact ⟨i, by simp [hi], hmi⟩
    · rw [scanBack, if_neg ha] at h
      obtain ⟨i, hi, hmi⟩ := ih h
      exact ⟨i, by simp [hi], hmi⟩

/-- When the submission loop breaks at step `t'`, some index at most `t'` is
exhausted. -/
theorem breakIndex_noItem (m : Int → MatResult) (sched : Nat → Nat → Bool) :
    ∀ fuel t t' : Nat, breakIndex m sched fuel t = some t' →
      ∃ j : Nat, j ≤ t' ∧ m j = .noItem := by
  intro fuel
  induction fuel with
  | zero =>
    intro t t' h
    exact absurd h (by simp [breakIndex])
  | succ f ih =>
    intro t t' h
    rw [breakIndex] at h
    split at h
    · rename_i hs
      have ht' : t = t' := by injection h
      subst ht'
      obtain ⟨i, hi, hmi⟩ := scanBack_noItem m (sched t) _ hs
      refine ⟨i, ?_, hmi⟩
      rw [List.mem_reverse, List.mem_range] at hi
      omega
    · exact ih (t + 1) t' h

theorem collectItems_append (m : Int → MatResult) (l₁ l₂ : List Nat) :
    collectItems m (l₁ ++ l₂) = collectItems m l₁ ++ collectItems m l₂ := by
  unfold collectItems
  exact List.filterMap_append l₁ l₂ _

/-- Extra indices past a uniformly exhausted tail contribute nothing to the
collection phase. -/
theorem collectItems_range_stable (m : Int → MatResult) (E : Nat)
    (hge : ∀ k : Nat, E ≤ k → m k = .noItem) :
    ∀ n : Nat, E ≤ n → collectItems m (List.range n) = collectItems m (List.range E) := by
  intro n
  induction n with
  | zero =>
    intro hEn
    have : E = 0 := by omega
    rw [this]
  | succ n ih =>
    intro hEn
    by_cases hEeq : E = n + 1
    · rw [hEeq]
    · have hEle : E ≤ n := by omega
      rw [List.range_succ, collectItems_append, ih hEle]
      have hnil : collectItems m [n] = [] := by
        simp [collectItems, hge n hEle]
      rw [hnil, List.append_nil]

/-- With fuel past the first exhausted index `E`, the serial loop from `i`
collects exactly the ITEM values of indices `i, ..., E - 1`. -/
theorem toListFuel_eq_collect (m : Int → MatResult) (E : Nat)
    (hE : m E = .noItem) (hlt : ∀ k : Nat, k < E → m k ≠ .noItem) :
    ∀ fuel i : Nat, i ≤ E → E - i < fuel →
      toListFuel m fuel i = collectItems m (List.range' i (E - i)) := by
  intro fuel
  induction fuel with
  | zero =>
    intro i h1 h2
    omega
  | succ f ih =>
    intro i h1 h2
    by_cases hiE : i = E
    · subst hiE
      rw [toListFuel]
      rw [hE]
      simp [collectItems]
    · have hilt : i < E := by omega
      rw [toListFuel]
      have hstep : ((i : Int) + 1) = ((i + 1 : Nat) : Int) := by push_cast; ring
      have hr : E - i = (E - (i + 1)) + 1 := by omega
      rw [hr, List.range'_succ]
      cases hm : m i with
      | item v =>
        rw [hstep, ih (i + 1) (by omega) (by omega)]
        simp [collectItems, hm]
      | filteredOut =>
        rw [hstep, ih (i + 1) (by omega) (by omega)]
        simp [collectItems, hm]
      | noItem => exact absurd hm (hlt i hilt)

/-- Serial `to_list` collects exactly the ITEM values below the first
exhausted index. -/
theorem serialToList_eq_collect (s : Stage) (hex : ∃ k : Nat, materialize s k = .noItem) :
    serialToList s = collectItems (materialize s) (List.range (Nat.find hex)) := by
  have hE : materialize s (Nat.find hex : Nat) = .noItem := Nat.find_spec hex
  have hmin : ∀ k : Nat, k < Nat.find hex → materialize s k ≠ .noItem :=
    fun k hk => Nat.find_min hex hk
  have hEb : Nat.find hex ≤ bound s :=
    Nat.find_le (materialize_noItem_of_bound s (bound s) (by omega))
  unfold serialToList
  have h := toListFuel_eq_collect (materialize s) (Nat.find hex) hE hmin
      (bound s + 1) 0 (by omega) (by omega)
  rw [List.range_eq_range']
  simpa using h

/-!  ## Claim theorems  -/

/-- C1 (counterexample): on `stream([1, 2]).filter(lambda x: x % 2 == 0)`,
materializing index 0 yields FILTERED_OUT, not `Item(2)` (the 0-th value
satisfying the predicate in parent order), so the filter stage does not
perform dense index remapping with a persistent cursor. -/
theorem filter_dense_remap_counterexample :
    materialize (.filter isEvenV (.source [.int 1, .int 2])) 0 = .filteredOut ∧
      MatResult.filteredOut ≠ .item (.int 2) :=
  ⟨by decide, by decide⟩

/-- C1 (amended): the filter stage materializes the SAME index in the parent
and translates the outcome pointwise: a parent item surviving the predicate
is passed through, a parent item failing it becomes FILTERED_OUT, and
FILTERED_OUT / NO_ITEM (exhausted) parent results are passed through
unchanged.  There is no cursor and no dense remapping; the dense
renumbering happens only in `to_list`, which skips FILTERED_OUT results. -/
theorem filter_materialize_passthrough (q : Val → Bool) (p : Stage) (i : Int) :
    (materialize (.filter q p) i = .noItem ↔ materialize p i = .noItem) ∧
    (∀ v, materialize (.filter q p) i = .item v ↔
      (materialize p i = .item v ∧ q v = true)) ∧
    (materialize (.filter q p) i = .filteredOut ↔
      ((∃ v, materialize p i = .item v ∧ q v = false) ∨
        materialize p i = .filteredOut)) := by
  refine ⟨filter_noItem_iff q p i, ?_, ?_⟩
  · intro v
    cases hm : materialize p i with
    | item w =>
      have hf : materialize (.filter q p) i =
          if q w = true then .item w else .filteredOut := by
        rw [materialize_filter, hm]
      rw [hf]
      cases hq : q w with
      | true =>
        rw [if_pos rfl]
        constructor
        · intro h
          have hwv : w = v := by injection h
          subst hwv
          exact ⟨rfl, hq⟩
        · intro h
          exact h.1
      | false =>
        rw [if_neg (by simp)]
        constructor
        · intro h
          exact absurd h (by simp)
        · intro h
          have hwv : w = v := by injection h.1
          subst hwv
          rw [hq] at h
          exact absurd h.2 (by simp)
    | filteredOut =>
      have hf : materialize (.filter q p) i = .filteredOut := by
        rw [materialize_filter, hm]
      rw [hf]
      simp
    | noItem =>
      have hf : materialize (.filter q p) i = .noItem := by
        rw [materialize_filter, hm]
      rw [hf]
      simp
  · cases hm : materialize p i with
    | item w =>
      have hf : materialize (.filter q p) i =
          if q w = true then .item w else .filteredOut := by
        rw [materialize_filter, hm]
      rw [hf]
      cases hq : q w with
      | true =>
        rw [if_pos rfl]
        constructor
        · intro h
          exact absurd h (by simp)
        · intro h
          rcases h with ⟨v, hv, hqv⟩ | hfo
          · have hwv : w = v := by injection hv
            subst hwv
            rw [hq] at hqv
            exact absurd hqv (by simp)
          · exact absurd hfo (by simp)
      | false =>
        rw [if_neg (by simp)]
        constructor
        · intro _
          exact Or.inl ⟨w, rfl, hq⟩
        · intro _
          rfl
    | filteredOut =>
      have hf : materialize (.filter q p) i = .filteredOut := by
        rw [materialize_filter, hm]
      rw [hf]
      simp
    | noItem =>
      have hf : materialize (.filter q p) i = .noItem := by
        rw [materialize_filter, hm]
      rw [hf]
      simp

/-- C1 amended claim at a concrete input: index 1 of the same filtered
stream holds Item(2) because the parent holds Item(2) there. -/
theorem filter_materialize_passthrough_witness :
    materialize (.filter isEvenV (.source [.int 1, .int 2])) 1 = .item (.int 2) :=
  ((filter_materialize_passthrough isEvenV (.source [.int 1, .int 2]) 1).2.1
      (.int 2)).mpr ⟨by decide, by decide⟩

/-- C2: a reverse stage materializes the parent at
`original_size - index - 1` where `original_size` is the length of the
ultimate root Source collection, propagated unchanged through every
transform stage; concretely the propagated size of
`stream([1,2,3,4]).filter(odd)` is the root size 4, not the effective
filtered size 2. -/
theorem reverse_uses_root_original_size :
    (∀ s : Stage, originalSize s = (rootSource s).length) ∧
    (∀ (p : Stage) (i : Int),
      materialize (.reverse p) i =
        materialize p (((rootSource p).length : Int) - i - 1)) ∧
    (originalSize oddSrc4 = 4 ∧ (serialToList oddSrc4).length = 2) := by
  refine ⟨originalSize_eq_rootSource_length, ?_, by decide, by decide⟩
  intro p i
  rw [materialize_reverse, originalSize_eq_rootSource_length]

/-- C4: `filter(p).to_list()` is exactly the elements of the parent's
`to_list()` that satisfy the predicate, in their original relative order. -/
theorem filter_toList_is_filtered_parent (q : Val → Bool) (s : Stage) :
    serialToList (.filter q s) = List.filter q (serialToList s) :=
  serialToList_filter q s

/-- C5: reversing a stage twice and materializing gives back the original
list (the two index inversions against the same propagated original size
cancel). -/
theorem reverse_involution_toList (s : Stage) :
    serialToList (.reverse (.reverse s)) = serialToList s :=
  serialToList_reverse_reverse s

/-- C7: `reduce(f)` on a stream whose materialized list is empty fails (the
reduce of an empty iterable without an initial value has no result,
modelled as `none`), and on a non-empty list returns the left fold of `f`
seeded with the head. -/
theorem reduce_empty_fails_nonempty_folds (f : Val → Val → Val) (s : Stage) :
    (serialToList s = [] → streamReduce f s = none) ∧
    (∀ x xs, serialToList s = x :: xs →
      streamReduce f s = some (xs.foldl f x)) := by
  constructor
  · intro h
    unfold streamReduce
    rw [h]
    rfl
  · intro x xs h
    unfold streamReduce
    rw [h]
    rfl

/-- C7 at concrete inputs: reduce of an empty stream fails, reduce of
`stream([1, 2, 3])` with addition returns 6. -/
theorem reduce_empty_fails_nonempty_folds_witness :
    streamReduce addV (.source []) = none ∧
      streamReduce addV (.source [.int 1, .int 2, .int 3]) = some (.int 6) := by
  constructor
  · exact (reduce_empty_fails_nonempty_folds addV (.source [])).1 (by decide)
  · have h := (reduce_empty_fails_nonempty_folds addV
      (.source [.int 1, .int 2, .int 3])).2 (.int 1) [.int 2, .int 3] (by decide)
    rw [h]
    decide

/-- An empty source stage is exhausted everywhere. -/
theorem materialize_source_nil (i : Int) : materialize (.source []) i = .noItem := by
  rw [materialize_source]
  split
  · rfl
  · rfl

/-- C3 (counterexample): on the pure chain
`stream([1,2,3,4]).filter(odd).flatten().reverse()` there is a completion
schedule (no promise result visible before the check following promise 6)
on which the parallel driver returns `[3, 1, 3, 1]` while serial `to_list`
returns `[]`: the parallel result is not always the serial result. -/
theorem parallel_serial_counterexample :
    parallelToList (materialize revFlatOdd) lateSched 10 =
        some [.int 3, .int 1, .int 3, .int 1] ∧
      serialToList revFlatOdd = [] ∧
      ([Val.int 3, .int 1, .int 3, .int 1] : List Val) ≠ [] :=
  ⟨by decide, by decide, by decide⟩

/-- C3 (amended): for a stage whose exhaustion is monotone over non-negative
indices (true of every chain that puts no Reverse above a Flatten or Filter
that shrank the index space — in particular every Flatten-free chain), the
parallel driver returns the serial `to_list` under EVERY completion
schedule, whenever its submission loop terminates: results are reassembled
in index order and results computed past the exhaustion boundary are
discarded. -/
theorem parallel_toList_eq_serial_of_monotone (s : Stage) (sched : Nat → Nat → Bool)
    (fuel : Nat) (out : List Val)
    (hmono : ∀ i j : Nat, i ≤ j → materialize s i = .noItem → materialize s j = .noItem)
    (hrun : parallelToList (materialize s) sched fuel = some out) :
    out = serialToList s := by
  unfold parallelToList at hrun
  cases hb : breakIndex (materialize s) sched fuel 0 with
  | none =>
    rw [hb] at hrun
    exact absurd hrun (by simp)
  | some t =>
    rw [hb] at hrun
    have hout : collectItems (materialize s) (List.range (t + 1)) = out := by
      simpa using hrun
    obtain ⟨j, hj, hmj⟩ := breakIndex_noItem (materialize s) sched fuel 0 t hb
    have hex : ∃ k : Nat, materialize s k = .noItem := ⟨j, hmj⟩
    have hge : ∀ k : Nat, Nat.find hex ≤ k → materialize s k = .noItem :=
      fun k hk => hmono (Nat.find hex) k hk (Nat.find_spec hex)
    have hEt : Nat.find hex ≤ t := le_trans (Nat.find_le hmj) hj
    rw [← hout, serialToList_eq_collect s hex]
    exact collectItems_range_stable (materialize s) (Nat.find hex) hge (t + 1) (by omega)

/-- C3 amended claim at a concrete input: the empty source under the
all-complete schedule. -/
theorem parallel_toList_eq_serial_witness :
    ([] : List Val) = serialToList (.source []) :=
  parallel_toList_eq_serial_of_monotone (.source []) (fun _ _ => true) 1 []
    (fun _ j _ _ => materialize_source_nil j) (by decide)

/-- C6 (counterexample): the flatten stage of `stream([[1]])` has a cached
flattened list of length 1, and materializing the out-of-bounds negative
index -1 yields `Item(1)` (Python negative indexing into the cache), not
`Exhausted`. -/
theorem flatten_negative_counterexample :
    materialize (.flatten (.source [.vlist [.int 1]])) (-1) = .item (.int 1) ∧
      MatResult.item (.int 1) ≠ .noItem :=
  ⟨by decide, by decide⟩

/-- C6 (amended): a flatten stage materializes to `Exhausted` exactly at the
indices `i` with `i ≥ L` or `i < -L`, where `L` is the length of the cached
flattened list — negative indices within `[-L, -1]` hit the cache through
Python negative indexing instead. -/
theorem flatten_exhausted_iff (p : Stage) (i : Int) :
    materialize (.flatten p) i = .noItem ↔
      (((flattenVals (serialToList p)).length : Int) ≤ i ∨
        i < -((flattenVals (serialToList p)).length : Int)) := by
  rw [materialize_flatten]
  cases hg : pyGet (flattenVals (serialToList p)) i with
  | some v =>
    constructor
    · intro h
      exact absurd h (by simp)
    · intro h
      exfalso
      rw [(pyGet_eq_none_iff _ _).mpr h] at hg
      exact Option.noConfusion hg
  | none =>
    constructor
    · intro _
      exact (pyGet_eq_none_iff _ _).mp hg
    · intro _
      rfl

/-- C6 amended claim at a concrete input: index -2 on flatten of
`[[1]]` (cache length 1) is exhausted. -/
theorem flatten_exhausted_iff_witness :
    materialize (.flatten (.source [.vlist [.int 1]])) (-2) = .noItem :=
  (flatten_exhausted_iff (.source [.vlist [.int 1]]) (-2)).mpr (by decide)

/-- C8 (counterexample): the Reverse stage
`stream([1,2,3,4]).filter(odd).flatten().reverse()` returns Exhausted at
index 0 yet an item at index 2, and the Source stage `stream([1])` returns
Exhausted at index -1 yet an item at index 0 — exhaustion is not monotone
for every Source/Map/Reverse stage at every index. -/
theorem exhaustion_monotone_counterexample :
    (materialize revFlatOdd 0 = .noItem ∧ materialize revFlatOdd 2 ≠ .noItem) ∧
      (materialize (.source [.int 1]) (-1) = .noItem ∧
        materialize (.source [.int 1]) 0 ≠ .noItem) :=
  ⟨⟨by decide, by decide⟩, by decide, by decide⟩

/-- C8 (amended): in any Flatten-free chain (in particular Source stages and
Map/Reverse stages over Flatten-free parents), once Exhausted is returned
for a non-negative index it is returned for every larger index. -/
theorem exhaustion_monotone_of_noFlatten (s : Stage) (h : noFlatten s = true)
    (i j : Int) (h0 : 0 ≤ i) (hij : i ≤ j)
    (hi : materialize s i = .noItem) : materialize s j = .noItem := by
  rw [noItem_iff_of_noFlatten s i h] at hi
  rw [noItem_iff_of_noFlatten s j h]
  omega

/-- C8 amended claim at a concrete input: `stream([1,2]).map(id).reverse()`
is exhausted at 2, hence also at 5. -/
theorem exhaustion_monotone_of_noFlatten_witness :
    materialize (.reverse (.map (fun v => v) (.source [.int 1, .int 2]))) 5 =
      .noItem :=
  exhaustion_monotone_of_noFlatten
    (.reverse (.map (fun v => v) (.source [.int 1, .int 2])))
    (by decide) 2 5 (by decide) (by decide) (by decide)

/-- C9: the first `size()` call on a filter stage (sentinel cache -1)
computes the number of parent elements passing the predicate via a full
`to_list` scan and stores it; a second call finds a non-sentinel cache and
returns the identical value with the cache unchanged.  Concretely,
`stream(range(50)).filter(lambda x: x % 2 == 0).size()` returns 25 on both
the computing call and the cached call. -/
theorem filter_size_cached_single_flight :
    (∀ (q : Val → Bool) (parent : Stage),
      (filterSize q parent (-1)).1 = (List.filter q (serialToList parent)).length ∧
      (filterSize q parent (-1)).2 ≠ -1 ∧
      (filterSize q parent (filterSize q parent (-1)).2).1 =
        (filterSize q parent (-1)).1 ∧
      (filterSize q parent (filterSize q parent (-1)).2).2 =
        (filterSize q parent (-1)).2) ∧
    ((filterSize isEvenV src50 (-1)).1 = 25 ∧
      (filterSize isEvenV src50 (filterSize isEvenV src50 (-1)).2).1 = 25) := by
  constructor
  · intro q parent
    have h1 : filterSize q parent (-1) =
        ((serialToList (.filter q parent)).length,
          ((serialToList (.filter q parent)).length : Int)) := by
      unfold filterSize
      rw [if_pos rfl]
    have hne : ((serialToList (.filter q parent)).length : Int) ≠ -1 := by omega
    have h2 : filterSize q parent ((serialToList (.filter q parent)).length : Int) =
        ((serialToList (.filter q parent)).length,
          ((serialToList (.filter q parent)).length : Int)) := by
      unfold filterSize
      rw [if_neg hne]
      simp
    refine ⟨?_, ?_, ?_, ?_⟩
    · rw [h1, serialToList_filter]
    · rw [h1]
      exact hne
    · rw [h1, h2]
    · rw [h1, h2]
  · exact ⟨by decide, by decide⟩

/-- C10: a flatten stage whose cached flattened list has positive length `L`
materializes every negative index in `[-L, -1]` to `Item(flattened[L + i])`
— the element counted from the end via Python negative indexing — rather
than Exhausted.  (Such indices are reachable through the public interface:
a Reverse above the flatten computes parent indices from the propagated
root `original_size`, which can be smaller than `L`.) -/
theorem flatten_negative_index_item (p : Stage) (i : Int)
    (hL : 0 < (flattenVals (serialToList p)).length)
    (h1 : -((flattenVals (serialToList p)).length : Int) ≤ i)
    (h2 : i ≤ -1) :
    ∃ v, (flattenVals (serialToList p)).get?
        (((flattenVals (serialToList p)).length : Int) + i).toNat = some v ∧
      materialize (.flatten p) i = .item v := by
  rw [materialize_flatten]
  have hpg : pyGet (flattenVals (serialToList p)) i =
      (flattenVals (serialToList p)).get?
        (((flattenVals (serialToList p)).length : Int) + i).toNat := by
    unfold pyGet
    rw [if_neg (by omega), if_pos (by omega)]
  rw [hpg]
  cases hg : (flattenVals (serialToList p)).get?
      (((flattenVals (serialToList p)).length : Int) + i).toNat with
  | some v => exact ⟨v, rfl, rfl⟩
  | none =>
    exfalso
    have hn := List.get?_eq_none.mp hg
    omega

/-- C10 at a concrete input: flatten of `stream([[1, 2]])` has cache length
2 (the root size is 1), and index -1 materializes to Item(2). -/
theorem flatten_negative_index_item_witness :
    ∃ v, (flattenVals (serialToList nestedSrc)).get?
        (((flattenVals (serialToList nestedSrc)).length : Int) + (-1)).toNat = some v ∧
      materialize (.flatten nestedSrc) (-1) = .item v :=
  flatten_negative_index_item nestedSrc (-1) (by decide) (by decide) (by decide)

end LazyStreams
